import Mathlib

/-!
Verification of the document-processing core of the `orsa_analysis` repository
against its natural-language specification.

The embedding translates the Python sources:
  * `src/orsa_analysis/core/versioning.py`   (`VersionManager`)
  * `src/orsa_analysis/checks/rules.py`      (`run_check`, `REGISTERED_CHECKS`)
  * `src/orsa_analysis/core/processor.py`    (`DocumentProcessor`)
  * `src/orsa_analysis/core/orchestrator.py` (`ORSAPipeline.process_documents`)

Python `dict`s are modelled as association lists with insertion-order
semantics: assigning to a fresh key appends at the end, assigning to an
existing key overwrites in place.  Exceptions are modelled with `Except`;
`datetime.now()` is modelled as a monotone tick counter threaded through an
explicit state; the SHA-256 hash, the Excel reader, the check bodies and the
database sink are external black boxes, modelled as parameters of an
environment record.
-/

/-- First-match lookup in an association list, i.e. Python `d[k]` / `k in d`
(keys are unique in every dict reachable by the modelled code). -/
def dictFind {α β : Type} [DecidableEq α] : List (α × β) → α → Option β
  | [], _ => none
  | (k', v') :: rest, k => if k' = k then some v' else dictFind rest k

/-- Python `d[k] = v`: overwrite in place if the key is present, otherwise
append at the end (dicts preserve insertion order). -/
def dictInsert {α β : Type} [DecidableEq α] : List (α × β) → α → β → List (α × β)
  | [], k, v => [(k, v)]
  | (k', v') :: rest, k, v =>
      if k' = k then (k, v) :: rest else (k', v') :: dictInsert rest k v

theorem dictFind_insert_self {α β : Type} [DecidableEq α] (d : List (α × β)) (k : α) (v : β) :
    dictFind (dictInsert d k v) k = some v := by
  induction d with
  | nil => simp [dictFind, dictInsert]
  | cons p rest ih =>
      obtain ⟨k', v'⟩ := p
      by_cases h : k' = k
      · simp [dictFind, dictInsert, h]
      · simp [dictFind, dictInsert, h, ih]

theorem dictFind_insert_ne {α β : Type} [DecidableEq α] (d : List (α × β)) (k k' : α) (v : β)
    (h : k' ≠ k) : dictFind (dictInsert d k v) k' = dictFind d k' := by
  have h' : ¬ (k = k') := fun e => h e.symm
  induction d with
  | nil => simp [dictFind, dictInsert, h']
  | cons p rest ih =>
      obtain ⟨k₀, v₀⟩ := p
      by_cases hk : k₀ = k
      · subst hk
        simp [dictFind, dictInsert, h']
      · simp only [dictInsert, if_neg hk]
        by_cases hk' : k₀ = k'
        · simp [dictFind, hk']
        · simp [dictFind, hk', ih]

theorem dictInsert_of_find_none {α β : Type} [DecidableEq α] {d : List (α × β)} {k : α}
    (v : β) (h : dictFind d k = none) : dictInsert d k v = d ++ [(k, v)] := by
  induction d with
  | nil => simp [dictInsert]
  | cons p rest ih =>
      obtain ⟨k', v'⟩ := p
      by_cases hk : k' = k
      · simp [dictFind, hk] at h
      · simp only [dictFind, if_neg hk] at h
        simp [dictInsert, hk, ih h]

theorem dictFind_eq_none_iff {α β : Type} [DecidableEq α] (d : List (α × β)) (k : α) :
    dictFind d k = none ↔ k ∉ d.map Prod.fst := by
  induction d with
  | nil => simp [dictFind]
  | cons p rest ih =>
      obtain ⟨k', v'⟩ := p
      by_cases hk : k' = k
      · simp [dictFind, hk]
      · have h' : ¬ (k = k') := fun e => hk e.symm
        simp [dictFind, hk, ih, h']

theorem dictFind_append_left_none {α β : Type} [DecidableEq α] {d₁ : List (α × β)}
    (d₂ : List (α × β)) {k : α} (h : dictFind d₁ k = none) :
    dictFind (d₁ ++ d₂) k = dictFind d₂ k := by
  induction d₁ with
  | nil => simp
  | cons p rest ih =>
      obtain ⟨k', v'⟩ := p
      by_cases hk : k' = k
      · simp [dictFind, hk] at h
      · simp only [dictFind, if_neg hk] at h
        simp [dictFind, hk, ih h]

theorem dictInsert_append_left_none {α β : Type} [DecidableEq α] {d₁ : List (α × β)}
    (d₂ : List (α × β)) {k : α} (v : β) (h : dictFind d₁ k = none) :
    dictInsert (d₁ ++ d₂) k v = d₁ ++ dictInsert d₂ k v := by
  induction d₁ with
  | nil => simp
  | cons p rest ih =>
      obtain ⟨k', v'⟩ := p
      by_cases hk : k' = k
      · simp [dictFind, hk] at h
      · simp only [dictFind, if_neg hk] at h
        simp [dictInsert, hk, ih h]

theorem dictFind_mem {α β : Type} [DecidableEq α] {d : List (α × β)} {k : α} {v : β}
    (h : dictFind d k = some v) : (k, v) ∈ d := by
  induction d with
  | nil => simp [dictFind] at h
  | cons p rest ih =>
      obtain ⟨k', v'⟩ := p
      by_cases hk : k' = k
      · subst hk
        simp [dictFind] at h
        simp [h]
      · simp only [dictFind, if_neg hk] at h
        exact List.mem_cons_of_mem _ (ih h)

theorem map_fst_dictInsert_found {α β : Type} [DecidableEq α] {d : List (α × β)} {k : α}
    (v : β) (h : (dictFind d k).isSome) :
    (dictInsert d k v).map Prod.fst = d.map Prod.fst := by
  induction d with
  | nil => simp [dictFind] at h
  | cons p rest ih =>
      obtain ⟨k', v'⟩ := p
      by_cases hk : k' = k
      · simp [dictInsert, hk]
      · simp only [dictFind, if_neg hk] at h
        simp [dictInsert, hk, ih h]

theorem mem_dictInsert_strong {α β : Type} [DecidableEq α] {d : List (α × β)} {k : α} {v : β}
    {p : α × β} (hnd : (d.map Prod.fst).Nodup) (hp : p ∈ dictInsert d k v) :
    p = (k, v) ∨ (p ∈ d ∧ p.1 ≠ k) := by
  induction d with
  | nil => simp [dictInsert] at hp; simp [hp]
  | cons q rest ih =>
      obtain ⟨k', v'⟩ := q
      simp only [List.map_cons, List.nodup_cons] at hnd
      by_cases hk : k' = k
      · subst hk
        simp only [dictInsert, if_pos rfl] at hp
        rcases List.mem_cons.mp hp with h | h
        · exact Or.inl h
        · right
          refine ⟨List.mem_cons_of_mem _ h, ?_⟩
          intro hpk
          exact hnd.1 (hpk ▸ List.mem_map_of_mem Prod.fst h)
      · simp only [dictInsert, if_neg hk] at hp
        rcases List.mem_cons.mp hp with h | h
        · subst h
          exact Or.inr ⟨List.mem_cons_self _ _, hk⟩
        · rcases ih hnd.2 h with h' | h'
          · exact Or.inl h'
          · exact Or.inr ⟨List.mem_cons_of_mem _ h'.1, h'.2⟩

/-- Python `max` over a (nonempty) list of naturals; the code only applies it
to nonempty lists, where folding from 0 agrees with Python's `max`. -/
def pyMax (l : List Nat) : Nat := l.foldl Nat.max 0

theorem pyMax_append_singleton (l : List Nat) (x : Nat) :
    pyMax (l ++ [x]) = Nat.max (pyMax l) x := by
  simp [pyMax, List.foldl_append]

theorem pyMax_range' (n : Nat) : pyMax (List.range' 1 n) = n := by
  induction n with
  | zero => simp [pyMax]
  | succ m ih =>
      rw [List.range'_concat, pyMax_append_singleton, ih]
      show max m (1 + 1 * m) = m + 1
      rw [Nat.max_eq_right (by omega)]
      omega

/-- The `FileVersion` dataclass from `versioning.py`. -/
structure FileVersion where
  institute_id : String
  file_name : String
  file_hash : String
  version_number : Nat
deriving DecidableEq, Repr

/-- The cache `VersionManager._version_cache : Dict[str, Dict[str, int]]`, institute id
to (file hash to version number), both dicts in insertion order. -/
abbrev VersionCache := List (String × List (String × Nat))

/-- Python `self._version_cache[institute_id]`, defaulting to the empty dict. -/
def lookupInst (cache : VersionCache) (institute_id : String) : List (String × Nat) :=
  (dictFind cache institute_id).getD []

/-- The guard `if institute_id not in self._version_cache: ...` creating an empty inner dict,
the guard at the top of both `get_version` and the `load_existing_versions` loop. -/
def ensureKey (cache : VersionCache) (institute_id : String) : VersionCache :=
  if (dictFind cache institute_id).isSome then cache else dictInsert cache institute_id []

/-- The assignment `current_versions = list(...); max(current_versions) + 1 if current_versions else 1`. -/
def nextVersion (inner : List (String × Nat)) : Nat :=
  let current_versions := inner.map Prod.snd
  if current_versions.isEmpty then 1 else pyMax current_versions + 1

/-- Core of `VersionManager.get_version`, after the file hash has been computed:
if the hash is new for this institute, assign `max(existing) + 1` (1 when the
institute has no versions), store it, and return the `FileVersion`. -/
def getVersionCore (cache : VersionCache) (institute_id file_name file_hash : String) :
    FileVersion × VersionCache :=
  let cache := ensureKey cache institute_id
  let inner := lookupInst cache institute_id
  match dictFind inner file_hash with
  | some version_number =>
      (⟨institute_id, file_name, file_hash, version_number⟩, cache)
  | none =>
      let version_number := nextVersion inner
      (⟨institute_id, file_name, file_hash, version_number⟩,
       dictInsert cache institute_id (dictInsert inner file_hash version_number))

/-- Predicate `VersionManager.is_processed`:
`institute_id in self._version_cache and file_hash in self._version_cache[institute_id]`. -/
def is_processed (cache : VersionCache) (institute_id file_hash : String) : Bool :=
  match dictFind cache institute_id with
  | none => false
  | some inner => (dictFind inner file_hash).isSome

/-- One record of the persisted version table handed to
`VersionManager.load_existing_versions`. -/
structure VersionRecord where
  institute_id : String
  file_hash : String
  version_number : Nat
deriving DecidableEq, Repr

/-- One iteration of the loop in `VersionManager.load_existing_versions`. -/
def loadStep (cache : VersionCache) (r : VersionRecord) : VersionCache :=
  let cache := ensureKey cache r.institute_id
  dictInsert cache r.institute_id
    (dictInsert (lookupInst cache r.institute_id) r.file_hash r.version_number)

/-- Method `VersionManager.load_existing_versions`: clears the cache (the old cache
argument is discarded) and replays every record. -/
def load_existing_versions (_cache : VersionCache) (existing_data : List VersionRecord) :
    VersionCache :=
  existing_data.foldl loadStep []

/-- Method `VersionManager.invalidate_cache`. -/
def invalidate_cache (cache : VersionCache) (institute_id : Option String) : VersionCache :=
  match institute_id with
  | some i => cache.filter (fun p => !(p.1 = i : Bool))
  | none => []

/-- One `get_version` call at the fingerprint level: institute, file name and
file hash of the file passed in. -/
structure VCall where
  inst : String
  name : String
  hash : String
deriving DecidableEq, Repr

/-- The cache after one `get_version` call. -/
def stepCall (cache : VersionCache) (c : VCall) : VersionCache :=
  (getVersionCore cache c.inst c.name c.hash).2

/-- The cache after a sequence of `get_version` calls. -/
def applyCalls (cache : VersionCache) (calls : List VCall) : VersionCache :=
  calls.foldl stepCall cache

/-- The distinct fingerprints first seen for institute `e` over a call
sequence, in order of first appearance, extending the accumulator `acc`. -/
def firstSeenFrom (e : String) (acc : List String) : List VCall → List String
  | [] => acc
  | c :: cs =>
      if c.inst = e ∧ c.hash ∉ acc then firstSeenFrom e (acc ++ [c.hash]) cs
      else firstSeenFrom e acc cs

/-- The distinct fingerprints first seen for institute `e`, in order of first
appearance in the call sequence. -/
def firstSeen (calls : List VCall) (e : String) : List String :=
  firstSeenFrom e [] calls

theorem dictFind_append_left_some {α β : Type} [DecidableEq α] {d₁ : List (α × β)}
    (d₂ : List (α × β)) {k : α} {v : β} (h : dictFind d₁ k = some v) :
    dictFind (d₁ ++ d₂) k = some v := by
  induction d₁ with
  | nil => simp [dictFind] at h
  | cons p rest ih =>
      obtain ⟨k', v'⟩ := p
      by_cases hk : k' = k
      · simp only [dictFind, if_pos hk] at h
        simp [dictFind, hk, h]
      · simp only [dictFind, if_neg hk] at h
        simp [dictFind, hk, ih h]

theorem lookupInst_dictInsert_self (cache : VersionCache) (k : String)
    (inner : List (String × Nat)) : lookupInst (dictInsert cache k inner) k = inner := by
  unfold lookupInst
  rw [dictFind_insert_self]
  rfl

theorem lookupInst_dictInsert_ne (cache : VersionCache) (k e : String)
    (inner : List (String × Nat)) (hne : k ≠ e) :
    lookupInst (dictInsert cache k inner) e = lookupInst cache e := by
  unfold lookupInst
  rw [dictFind_insert_ne _ _ _ _ (Ne.symm hne)]

theorem lookupInst_ensureKey_self (cache : VersionCache) (e : String) :
    lookupInst (ensureKey cache e) e = lookupInst cache e := by
  unfold ensureKey
  cases hc : dictFind cache e with
  | none => simp [lookupInst, hc, dictFind_insert_self]
  | some inner => simp [lookupInst, hc]

theorem lookupInst_ensureKey_ne (cache : VersionCache) (e e' : String) (hne : e ≠ e') :
    lookupInst (ensureKey cache e) e' = lookupInst cache e' := by
  unfold ensureKey
  cases hc : dictFind cache e with
  | none => simp [lookupInst, hc, dictFind_insert_ne cache e e' [] (Ne.symm hne)]
  | some inner => simp [hc]

theorem ensureKey_of_isSome {cache : VersionCache} {e : String}
    (h : (dictFind cache e).isSome) : ensureKey cache e = cache := by
  unfold ensureKey
  rw [if_pos h]

theorem getVersionCore_found {cache : VersionCache} {e h : String} {v : Nat} (n : String)
    (hv : dictFind (lookupInst cache e) h = some v) :
    getVersionCore cache e n h = (⟨e, n, h, v⟩, cache) := by
  have hsome : (dictFind cache e).isSome := by
    cases hc : dictFind cache e with
    | none => rw [lookupInst, hc] at hv; simp [dictFind] at hv
    | some inner => rfl
  have hl : lookupInst (ensureKey cache e) e = lookupInst cache e :=
    lookupInst_ensureKey_self cache e
  simp only [getVersionCore, ensureKey_of_isSome hsome, hv]

theorem getVersionCore_new {cache : VersionCache} {e h : String} (n : String)
    (hnone : dictFind (lookupInst cache e) h = none) :
    getVersionCore cache e n h =
      (⟨e, n, h, nextVersion (lookupInst cache e)⟩,
       dictInsert (ensureKey cache e) e
         (dictInsert (lookupInst cache e) h (nextVersion (lookupInst cache e)))) := by
  simp only [getVersionCore, lookupInst_ensureKey_self, hnone]

theorem stepCall_found (cache : VersionCache) (c : VCall) {v : Nat}
    (hv : dictFind (lookupInst cache c.inst) c.hash = some v) :
    stepCall cache c = cache := by
  unfold stepCall
  rw [getVersionCore_found c.name hv]

theorem lookupInst_stepCall_self_new (cache : VersionCache) (c : VCall)
    (hv : dictFind (lookupInst cache c.inst) c.hash = none) :
    lookupInst (stepCall cache c) c.inst
      = lookupInst cache c.inst ++ [(c.hash, nextVersion (lookupInst cache c.inst))] := by
  unfold stepCall
  rw [getVersionCore_new c.name hv]
  dsimp only
  rw [lookupInst_dictInsert_self, dictInsert_of_find_none _ hv]

theorem lookupInst_stepCall_ne (cache : VersionCache) (c : VCall) (e : String)
    (hne : c.inst ≠ e) : lookupInst (stepCall cache c) e = lookupInst cache e := by
  unfold stepCall
  cases hv : dictFind (lookupInst cache c.inst) c.hash with
  | some v => rw [getVersionCore_found c.name hv]
  | none =>
      rw [getVersionCore_new c.name hv]
      dsimp only
      rw [lookupInst_dictInsert_ne _ _ _ _ hne, lookupInst_ensureKey_ne _ _ _ hne]

theorem getVersionCore_stores (cache : VersionCache) (e n h : String) :
    dictFind (lookupInst (getVersionCore cache e n h).2 e) h
      = some (getVersionCore cache e n h).1.version_number := by
  cases hv : dictFind (lookupInst cache e) h with
  | some v =>
      rw [getVersionCore_found n hv]
      simpa using hv
  | none =>
      rw [getVersionCore_new n hv]
      dsimp only
      rw [lookupInst_dictInsert_self, dictFind_insert_self]

theorem stepCall_preserves_found (cache : VersionCache) (c : VCall) (e h : String) {v : Nat}
    (hv : dictFind (lookupInst cache e) h = some v) :
    dictFind (lookupInst (stepCall cache c) e) h = some v := by
  by_cases hce : c.inst = e
  · subst hce
    cases hch : dictFind (lookupInst cache c.inst) c.hash with
    | some w => rw [stepCall_found cache c hch]; exact hv
    | none =>
        rw [lookupInst_stepCall_self_new cache c hch]
        exact dictFind_append_left_some _ hv
  · rw [lookupInst_stepCall_ne cache c e hce]
    exact hv

theorem applyCalls_cons (cache : VersionCache) (c : VCall) (cs : List VCall) :
    applyCalls cache (c :: cs) = applyCalls (stepCall cache c) cs := rfl

theorem applyCalls_preserves_found (calls : List VCall) (cache : VersionCache) (e h : String)
    {v : Nat} (hv : dictFind (lookupInst cache e) h = some v) :
    dictFind (lookupInst (applyCalls cache calls) e) h = some v := by
  induction calls generalizing cache with
  | nil => exact hv
  | cons c cs ih =>
      rw [applyCalls_cons]
      exact ih _ (stepCall_preserves_found cache c e h hv)

/-- C2: for every institute `e` and fingerprint `h`, once `get_version`
(`lookup_or_assign`) has assigned a version for `(e, h)`, any later
`get_version` call for `(e, h)` — with arbitrary intervening `get_version`
calls `mids`, but no load or invalidate — returns the same version number, and
the later call leaves the cache unchanged (the stored value is returned
as is). -/
theorem lookup_or_assign_stable (cache : VersionCache) (e name₁ h : String)
    (mids : List VCall) (name₂ : String) :
    (getVersionCore (applyCalls (getVersionCore cache e name₁ h).2 mids) e name₂ h).1.version_number
        = (getVersionCore cache e name₁ h).1.version_number
      ∧ (getVersionCore (applyCalls (getVersionCore cache e name₁ h).2 mids) e name₂ h).2
        = applyCalls (getVersionCore cache e name₁ h).2 mids := by
  have h1 := getVersionCore_stores cache e name₁ h
  have h2 := applyCalls_preserves_found mids _ e h h1
  rw [getVersionCore_found name₂ h2]
  exact ⟨rfl, rfl⟩

theorem is_processed_eq (cache : VersionCache) (e h : String) :
    is_processed cache e h = (dictFind (lookupInst cache e) h).isSome := by
  unfold is_processed lookupInst
  cases hc : dictFind cache e with
  | none => simp [dictFind]
  | some inner => simp

theorem is_processed_stepCall (cache : VersionCache) (c : VCall) (e h : String) :
    is_processed (stepCall cache c) e h
      = (is_processed cache e h || (decide (c.inst = e) && decide (c.hash = h))) := by
  rw [is_processed_eq, is_processed_eq]
  by_cases hce : c.inst = e
  · subst hce
    cases hch : dictFind (lookupInst cache c.inst) c.hash with
    | some w =>
        rw [stepCall_found cache c hch]
        by_cases hh : c.hash = h
        · subst hh
          rw [hch]
          simp
        · simp [hh]
    | none =>
        rw [lookupInst_stepCall_self_new cache c hch]
        by_cases hh : c.hash = h
        · subst hh
          rw [dictFind_append_left_none _ hch, hch]
          simp [dictFind]
        · cases hfh : dictFind (lookupInst cache c.inst) h with
          | some u =>
              rw [dictFind_append_left_some _ hfh]
              simp [hh]
          | none =>
              rw [dictFind_append_left_none _ hfh]
              simp [dictFind, hh]
  · rw [lookupInst_stepCall_ne cache c e hce]
    simp [hce]

theorem is_processed_applyCalls (calls : List VCall) (cache : VersionCache) (e h : String) :
    is_processed (applyCalls cache calls) e h
      = (is_processed cache e h
         || calls.any (fun c => decide (c.inst = e) && decide (c.hash = h))) := by
  induction calls generalizing cache with
  | nil => simp [applyCalls]
  | cons c cs ih =>
      rw [applyCalls_cons, ih, is_processed_stepCall]
      simp [Bool.or_assoc]

theorem lookupInst_loadStep_self (cache : VersionCache) (r : VersionRecord) :
    lookupInst (loadStep cache r) r.institute_id
      = dictInsert (lookupInst cache r.institute_id) r.file_hash r.version_number := by
  unfold loadStep
  dsimp only
  rw [lookupInst_dictInsert_self, lookupInst_ensureKey_self]

theorem lookupInst_loadStep_ne (cache : VersionCache) (r : VersionRecord) (e : String)
    (hne : r.institute_id ≠ e) :
    lookupInst (loadStep cache r) e = lookupInst cache e := by
  unfold loadStep
  dsimp only
  rw [lookupInst_dictInsert_ne _ _ _ _ hne, lookupInst_ensureKey_ne _ _ _ hne]

theorem is_processed_loadStep (cache : VersionCache) (r : VersionRecord) (e h : String) :
    is_processed (loadStep cache r) e h
      = (is_processed cache e h
         || (decide (r.institute_id = e) && decide (r.file_hash = h))) := by
  rw [is_processed_eq, is_processed_eq]
  by_cases hce : r.institute_id = e
  · subst hce
    rw [lookupInst_loadStep_self]
    by_cases hh : r.file_hash = h
    · subst hh
      rw [dictFind_insert_self]
      simp
    · rw [dictFind_insert_ne _ _ _ _ (Ne.symm hh)]
      simp [hh]
  · rw [lookupInst_loadStep_ne _ _ _ hce]
    simp [hce]

theorem is_processed_loadFold (records : List VersionRecord) (cache0 : VersionCache)
    (e h : String) :
    is_processed (records.foldl loadStep cache0) e h
      = (is_processed cache0 e h
         || records.any (fun r => decide (r.institute_id = e) && decide (r.file_hash = h))) := by
  induction records generalizing cache0 with
  | nil => simp
  | cons r rs ih =>
      rw [List.foldl_cons, ih, is_processed_loadStep]
      simp [Bool.or_assoc]

/-- C5: after rehydrating a fresh registry with `load_existing_versions` and
then performing any sequence of `get_version` (`lookup_or_assign`) calls —
with no intervening invalidate or reload — `is_processed e h` is true exactly
when some loaded record carried the pair `(e, h)` or some call was made for
the pair `(e, h)`: cache membership holds exactly when that content has been
seen for that institute. -/
theorem is_processed_iff_seen (records : List VersionRecord) (calls : List VCall)
    (c0 : VersionCache) (e h : String) :
    is_processed (applyCalls (load_existing_versions c0 records) calls) e h
      = (records.any (fun r => decide (r.institute_id = e) && decide (r.file_hash = h))
         || calls.any (fun c => decide (c.inst = e) && decide (c.hash = h))) := by
  rw [is_processed_applyCalls, load_existing_versions, is_processed_loadFold]
  simp [is_processed, dictFind]

theorem zip_fst_snd {α β : Type} (l : List (α × β)) :
    (l.map Prod.fst).zip (l.map Prod.snd) = l := by
  induction l with
  | nil => rfl
  | cons p rest ih => simp [ih]

/-- Invariant of every registry reachable by `get_version` calls from the
empty cache: for each institute the stored versions are exactly
`1 .. (number of stored hashes)` in insertion order, and the stored hashes
are pairwise distinct. -/
def GapFree (cache : VersionCache) : Prop :=
  ∀ e, (lookupInst cache e).map Prod.snd = List.range' 1 (lookupInst cache e).length
    ∧ ((lookupInst cache e).map Prod.fst).Nodup

theorem nextVersion_of_range {inner : List (String × Nat)}
    (hv : inner.map Prod.snd = List.range' 1 inner.length) :
    nextVersion inner = inner.length + 1 := by
  unfold nextVersion
  rw [hv]
  by_cases hn : inner.length = 0
  · simp [hn]
  · have hne : (List.range' 1 inner.length).isEmpty = false := by
      cases hl : inner.length with
      | zero => exact absurd hl hn
      | succ m => rfl
    simp only [hne, Bool.false_eq_true, if_false, pyMax_range']

theorem invariant_stepCall {cache : VersionCache} (c : VCall) (hInv : GapFree cache) :
    GapFree (stepCall cache c) := by
  intro e
  by_cases hce : c.inst = e
  · subst hce
    cases hch : dictFind (lookupInst cache c.inst) c.hash with
    | some w =>
        rw [stepCall_found cache c hch]
        exact hInv c.inst
    | none =>
        obtain ⟨hv, hk⟩ := hInv c.inst
        have hnm : c.hash ∉ (lookupInst cache c.inst).map Prod.fst :=
          (dictFind_eq_none_iff _ _).mp hch
        rw [lookupInst_stepCall_self_new cache c hch]
        constructor
        · rw [List.map_append, hv, nextVersion_of_range hv, List.length_append]
          simp [List.range'_concat, Nat.add_comm]
        · rw [List.map_append, List.nodup_append]
          refine ⟨hk, List.nodup_singleton _, ?_⟩
          intro x hx hxm
          simp only [List.map_cons, List.map_nil, List.mem_singleton] at hxm
          subst hxm
          exact hnm hx
  · rw [lookupInst_stepCall_ne cache c e hce]
    exact hInv e

theorem innerKeys_stepCall (cache : VersionCache) (c : VCall) (e : String) :
    (lookupInst (stepCall cache c) e).map Prod.fst
      = if c.inst = e ∧ c.hash ∉ (lookupInst cache e).map Prod.fst
        then (lookupInst cache e).map Prod.fst ++ [c.hash]
        else (lookupInst cache e).map Prod.fst := by
  by_cases hce : c.inst = e
  · subst hce
    cases hch : dictFind (lookupInst cache c.inst) c.hash with
    | some w =>
        have hmem : c.hash ∈ (lookupInst cache c.inst).map Prod.fst := by
          by_contra hmem
          rw [← dictFind_eq_none_iff (lookupInst cache c.inst) c.hash, hch] at hmem
          exact Option.noConfusion hmem
        rw [stepCall_found cache c hch, if_neg (fun hand => hand.2 hmem)]
    | none =>
        have hnm : c.hash ∉ (lookupInst cache c.inst).map Prod.fst :=
          (dictFind_eq_none_iff _ _).mp hch
        rw [lookupInst_stepCall_self_new cache c hch, List.map_append,
          if_pos ⟨rfl, hnm⟩]
        rfl
  · rw [lookupInst_stepCall_ne cache c e hce, if_neg (fun hand => hce hand.1)]

theorem applyCalls_innerKeys (calls : List VCall) :
    ∀ cache : VersionCache, GapFree cache →
      (∀ e, (lookupInst (applyCalls cache calls) e).map Prod.fst
        = firstSeenFrom e ((lookupInst cache e).map Prod.fst) calls)
      ∧ GapFree (applyCalls cache calls) := by
  induction calls with
  | nil =>
      intro cache hInv
      exact ⟨fun e => rfl, hInv⟩
  | cons c cs ih =>
      intro cache hInv
      have hInv' := invariant_stepCall c hInv
      obtain ⟨hkeys, hInv''⟩ := ih (stepCall cache c) hInv'
      refine ⟨?_, ?_⟩
      · intro e
        rw [applyCalls_cons, hkeys e, innerKeys_stepCall]
        show _ = firstSeenFrom e _ (c :: cs)
        rw [show firstSeenFrom e ((lookupInst cache e).map Prod.fst) (c :: cs)
              = if c.inst = e ∧ c.hash ∉ (lookupInst cache e).map Prod.fst
                then firstSeenFrom e ((lookupInst cache e).map Prod.fst ++ [c.hash]) cs
                else firstSeenFrom e ((lookupInst cache e).map Prod.fst) cs from rfl]
        by_cases hcond : c.inst = e ∧ c.hash ∉ (lookupInst cache e).map Prod.fst
        · rw [if_pos hcond, if_pos hcond]
        · rw [if_neg hcond, if_neg hcond]
      · rw [applyCalls_cons]
        exact hInv''

/-- C1: starting from an empty registry (or one populated only by
`get_version` calls, which the induction covers), for every institute `e` the
final registry entry for `e` is exactly the list of distinct fingerprints
first seen for `e`, in order of first appearance, paired with the versions
`1, 2, .., n` — gap-free, starting at 1 (never 0), and independent across
institutes (the statement is per institute: a fingerprint already seen for
another institute still starts at that institute's own next version). Since
an assignment is recorded at first sight and never mutated afterwards
(`lookup_or_assign_stable`), these stored pairs are exactly the versions
assigned. -/
theorem versions_gap_free_in_first_seen_order (calls : List VCall) (e : String) :
    lookupInst (applyCalls [] calls) e
      = (firstSeen calls e).zip (List.range' 1 (firstSeen calls e).length) := by
  have hInv0 : GapFree ([] : VersionCache) := fun _ => ⟨rfl, List.nodup_nil⟩
  obtain ⟨hkeys, hInv⟩ := applyCalls_innerKeys calls [] hInv0
  obtain ⟨hv, hk⟩ := hInv e
  have hfs : (lookupInst (applyCalls [] calls) e).map Prod.fst = firstSeen calls e := by
    rw [hkeys e]
    rfl
  have hlen : (firstSeen calls e).length = (lookupInst (applyCalls [] calls) e).length := by
    rw [← hfs, List.length_map]
  rw [hlen, ← hfs, ← hv, zip_fst_snd]

theorem ensureKey_of_none {cache : VersionCache} {e : String}
    (h : dictFind cache e = none) : ensureKey cache e = cache ++ [(e, [])] := by
  unfold ensureKey
  rw [h]
  simp only [Option.isSome_none, Bool.false_eq_true, if_false]
  exact dictInsert_of_find_none _ h

/-- The persisted record list equivalent to a registry state: one
`(institute, hash, version)` triple per stored assignment, in storage order —
the `get_existing_versions()` view of what a run wrote to the append-only
version table. -/
def toRecords (cache : VersionCache) : List VersionRecord :=
  cache.flatMap (fun p => p.2.map (fun q => ⟨p.1, q.1, q.2⟩))

/-- Well-formedness of a cache: outer keys distinct, inner keys distinct,
no empty inner dict.  Holds for every cache reachable by `get_version`. -/
def WFCache (cache : VersionCache) : Prop :=
  (cache.map Prod.fst).Nodup
  ∧ ∀ p ∈ cache, (p.2.map Prod.fst).Nodup ∧ p.2 ≠ []

theorem WFCache_nil : WFCache [] := by
  refine ⟨List.nodup_nil, ?_⟩
  intro p hp
  simp at hp

theorem WFCache_stepCall {cache : VersionCache} (c : VCall) (hWF : WFCache cache) :
    WFCache (stepCall cache c) := by
  obtain ⟨hout, hin⟩ := hWF
  cases hch : dictFind (lookupInst cache c.inst) c.hash with
  | some w =>
      rw [stepCall_found cache c hch]
      exact ⟨hout, hin⟩
  | none =>
      unfold stepCall
      rw [getVersionCore_new c.name hch]
      dsimp only
      cases hc : dictFind cache c.inst with
      | some inner0 =>
          have hEeq : ensureKey cache c.inst = cache := ensureKey_of_isSome (by rw [hc]; rfl)
          have hinner0 : lookupInst cache c.inst = inner0 := by rw [lookupInst, hc]; rfl
          have hmem0 : (c.inst, inner0) ∈ cache := dictFind_mem hc
          have hnodin : (inner0.map Prod.fst).Nodup := (hin _ hmem0).1
          have hch0 : dictFind inner0 c.hash = none := hinner0 ▸ hch
          rw [hEeq, hinner0]
          constructor
          · rw [map_fst_dictInsert_found _ (by rw [hc]; rfl)]
            exact hout
          · intro p hp
            rcases mem_dictInsert_strong hout hp with hpe | ⟨hpc, _⟩
            · subst hpe
              dsimp only
              rw [dictInsert_of_find_none _ hch0]
              refine ⟨?_, by simp⟩
              rw [List.map_append, List.nodup_append]
              refine ⟨hnodin, List.nodup_singleton _, ?_⟩
              intro x hx hxm
              simp only [List.map_cons, List.map_nil, List.mem_singleton] at hxm
              subst hxm
              exact ((dictFind_eq_none_iff _ _).mp hch0) hx
            · exact hin p hpc
      | none =>
          have hEeq : ensureKey cache c.inst = cache ++ [(c.inst, [])] := ensureKey_of_none hc
          have hinner0 : lookupInst cache c.inst = [] := by rw [lookupInst, hc]; rfl
          have hnotin : c.inst ∉ cache.map Prod.fst := (dictFind_eq_none_iff _ _).mp hc
          rw [hEeq, hinner0, dictInsert_append_left_none _ _ hc]
          rw [show dictInsert [(c.inst, ([] : List (String × Nat)))] c.inst
                (dictInsert [] c.hash (nextVersion []))
                = [(c.inst, dictInsert [] c.hash (nextVersion []))] from by
              simp [dictInsert]]
          constructor
          · rw [List.map_append, List.nodup_append]
            refine ⟨hout, List.nodup_singleton _, ?_⟩
            intro x hx hxm
            simp only [List.map_cons, List.map_nil, List.mem_singleton] at hxm
            subst hxm
            exact hnotin hx
          · intro p hp
            rcases List.mem_append.mp hp with hpc | hps
            · exact hin p hpc
            · simp only [List.mem_singleton] at hps
              subst hps
              exact ⟨by simp [dictInsert], by simp [dictInsert]⟩

theorem WFCache_applyCalls (calls : List VCall) :
    ∀ cache, WFCache cache → WFCache (applyCalls cache calls) := by
  induction calls with
  | nil =>
      intro cache h
      exact h
  | cons c cs ih =>
      intro cache h
      rw [applyCalls_cons]
      exact ih _ (WFCache_stepCall c h)

theorem loadStep_present (acc : VersionCache) (innerAcc : List (String × Nat))
    (e h : String) (v : Nat) (hna : e ∉ acc.map Prod.fst) :
    loadStep (acc ++ [(e, innerAcc)]) ⟨e, h, v⟩ = acc ++ [(e, dictInsert innerAcc h v)] := by
  have hfa : dictFind acc e = none := (dictFind_eq_none_iff _ _).mpr hna
  have hfind : dictFind (acc ++ [(e, innerAcc)]) e = some innerAcc := by
    rw [dictFind_append_left_none _ hfa]
    simp [dictFind]
  unfold loadStep
  dsimp only
  rw [ensureKey_of_isSome (by rw [hfind]; rfl)]
  rw [show lookupInst (acc ++ [(e, innerAcc)]) e = innerAcc from by
    rw [lookupInst, hfind]; rfl]
  rw [dictInsert_append_left_none _ _ hfa]
  simp [dictInsert]

theorem loadStep_absent (acc : VersionCache) (e h : String) (v : Nat)
    (hna : e ∉ acc.map Prod.fst) :
    loadStep acc ⟨e, h, v⟩ = acc ++ [(e, [(h, v)])] := by
  have hfa : dictFind acc e = none := (dictFind_eq_none_iff _ _).mpr hna
  unfold loadStep
  dsimp only
  rw [ensureKey_of_none hfa]
  rw [show lookupInst (acc ++ [(e, ([] : List (String × Nat)))]) e = [] from by
    rw [lookupInst, dictFind_append_left_none _ hfa]
    simp [dictFind]]
  rw [dictInsert_append_left_none _ _ hfa]
  simp [dictInsert]

theorem loadFold_inner (pairs : List (String × Nat)) :
    ∀ (acc : VersionCache) (innerAcc : List (String × Nat)) (e : String),
      e ∉ acc.map Prod.fst →
      (innerAcc.map Prod.fst ++ pairs.map Prod.fst).Nodup →
      List.foldl loadStep (acc ++ [(e, innerAcc)])
          (pairs.map (fun q => (⟨e, q.1, q.2⟩ : VersionRecord)))
        = acc ++ [(e, innerAcc ++ pairs)] := by
  induction pairs with
  | nil =>
      intro acc innerAcc e hna _
      simp
  | cons q rest ih =>
      intro acc innerAcc e hna hnd
      obtain ⟨h, v⟩ := q
      have hnd' := hnd
      rw [List.nodup_append] at hnd'
      have hnotin : h ∉ innerAcc.map Prod.fst := by
        intro hmem
        exact hnd'.2.2 hmem (by simp)
      simp only [List.map_cons, List.foldl_cons]
      rw [loadStep_present acc innerAcc e h v hna]
      rw [show dictInsert innerAcc h v = innerAcc ++ [(h, v)] from
        dictInsert_of_find_none _ ((dictFind_eq_none_iff _ _).mpr hnotin)]
      have hnd2 : ((innerAcc ++ [(h, v)]).map Prod.fst ++ rest.map Prod.fst).Nodup := by
        rw [List.map_append, List.append_assoc]
        simpa using hnd
      rw [ih acc (innerAcc ++ [(h, v)]) e hna hnd2, List.append_assoc]
      rfl

theorem loadFold_toRecords (cache : VersionCache) :
    ∀ acc : VersionCache,
      (cache.map Prod.fst).Nodup →
      (∀ p ∈ cache, (p.2.map Prod.fst).Nodup ∧ p.2 ≠ []) →
      (∀ k ∈ cache.map Prod.fst, k ∉ acc.map Prod.fst) →
      List.foldl loadStep acc (toRecords cache) = acc ++ cache := by
  induction cache with
  | nil =>
      intro acc _ _ _
      simp [toRecords]
  | cons p rest ih =>
      intro acc hout hin hdisj
      obtain ⟨e, inner⟩ := p
      have hinner := hin (e, inner) (List.mem_cons_self _ _)
      rcases inner with _ | ⟨⟨h, v⟩, innerRest⟩
      · exact absurd rfl hinner.2
      · simp only [List.map_cons, List.nodup_cons] at hout
        obtain ⟨henot, houtrest⟩ := hout
        rw [show toRecords ((e, (h, v) :: innerRest) :: rest)
              = ((⟨e, h, v⟩ : VersionRecord)
                  :: innerRest.map (fun q => (⟨e, q.1, q.2⟩ : VersionRecord)))
                ++ toRecords rest from by simp [toRecords]]
        rw [List.foldl_append, List.foldl_cons]
        have he_not_acc : e ∉ acc.map Prod.fst := hdisj e (by simp)
        rw [loadStep_absent acc e h v he_not_acc]
        have hnd_inner : (([(h, v)] : List (String × Nat)).map Prod.fst
            ++ innerRest.map Prod.fst).Nodup := by
          simpa using hinner.1
        rw [loadFold_inner innerRest acc [(h, v)] e he_not_acc hnd_inner]
        rw [show ([(h, v)] : List (String × Nat)) ++ innerRest = (h, v) :: innerRest from rfl]
        have hdisj' : ∀ k ∈ rest.map Prod.fst,
            k ∉ (acc ++ [(e, (h, v) :: innerRest)]).map Prod.fst := by
          intro k hk
          rw [List.map_append, List.mem_append]
          rintro (hka | hke)
          · exact hdisj k (by simp [hk]) hka
          · simp only [List.map_cons, List.map_nil, List.mem_singleton] at hke
            subst hke
            exact henot hk
        rw [ih (acc ++ [(e, (h, v) :: innerRest)]) houtrest
          (fun p hp => hin p (List.mem_cons_of_mem _ hp)) hdisj']
        rw [List.append_assoc]
        rfl

/-- C6: round-trip.  For every registry built by a sequence of `get_version`
(`lookup_or_assign`) calls from the empty registry, extracting its
(institute, hash, version) records and feeding them to
`load_existing_versions` on any registry reproduces the original registry
exactly, hence identical `is_processed` and `get_version` behaviour on every
input; and `load_existing_versions` replaces all prior internal state (its
result does not depend on the registry it is called on). -/
theorem registry_roundtrip (calls : List VCall) (c0 : VersionCache) :
    load_existing_versions c0 (toRecords (applyCalls [] calls)) = applyCalls [] calls
    ∧ (∀ e h, is_processed (load_existing_versions c0 (toRecords (applyCalls [] calls))) e h
        = is_processed (applyCalls [] calls) e h)
    ∧ (∀ e n h,
        getVersionCore (load_existing_versions c0 (toRecords (applyCalls [] calls))) e n h
          = getVersionCore (applyCalls [] calls) e n h)
    ∧ (∀ c1 c2 recs, load_existing_versions c1 recs = load_existing_versions c2 recs) := by
  obtain ⟨hout, hin⟩ := WFCache_applyCalls calls [] WFCache_nil
  have hmain : load_existing_versions c0 (toRecords (applyCalls [] calls))
      = applyCalls [] calls := by
    unfold load_existing_versions
    have hfold := loadFold_toRecords (applyCalls [] calls) [] hout hin
      (by intro k _ hk; simp at hk)
    simpa using hfold
  refine ⟨hmain, fun e h => by rw [hmain], fun e n h => by rw [hmain], fun c1 c2 recs => rfl⟩

/-- A parsed workbook.  The check bodies are external black boxes, so the
parsed document is represented by its raw data; checks are arbitrary
functions on it. -/
abbrev Document := List Nat

/-- Result of invoking one check body: either a normal return of
`(outcome_bool, outcome_str, description)` or a raised exception carrying its
message. -/
inductive CheckOutcome where
  | ok : Bool → String → String → CheckOutcome
  | err : String → CheckOutcome
deriving DecidableEq, Repr

/-- Type `CheckFunction = Callable[[Workbook], Tuple[bool, str, str]]`, which may
also raise. -/
abbrev CheckFn := Document → CheckOutcome

/-- Function `run_check` from `checks/rules.py`: execute one check with error
handling.  A raised exception is caught and converted to
`(False, "zu prüfen", "Check failed with error: <message>")`; it never
escapes (the function is total). -/
def run_check (check_name : String) (check_function : CheckFn) (workbook : Document) :
    Bool × String × String :=
  match check_function workbook with
  | .ok b value description => (b, value, description)
  | .err e => (false, "zu prüfen", "Check failed with error: " ++ e)

/-- Naive substring test: `pat` occurs contiguously in `s`. -/
def strContains (s pat : String) : Bool :=
  (List.range (s.data.length + 1)).any (fun i => pat.data.isPrefixOf (s.data.drop i))

/-- The `CheckResult` dataclass from `database_manager.py` (the check value flows
through the `outcome_numeric` column as produced by the check body). -/
structure CheckResult where
  institute_id : String
  file_name : String
  file_hash : String
  version_number : Nat
  check_name : String
  check_description : String
  outcome_bool : Bool
  outcome_numeric : String
  processed_at : Nat
  geschaeft_nr : Option String
  berichtsjahr : Option Nat
deriving DecidableEq, Repr

/-- External collaborators of `DocumentProcessor`, as black-box parameters:
the filesystem (path to raw bytes, `none` when the file does not exist), the
SHA-256 hash of a byte string, the Excel reader (parse raw bytes or raise),
the registered checks (`get_all_checks()`), and whether a database write of a
given batch succeeds. -/
structure Env where
  fs : String → Option (List Nat)
  hashFn : List Nat → String
  parse : List Nat → Except String Document
  checks : List (String × CheckFn)
  sinkOk : List CheckResult → Bool

/-- Mutable state threaded through processing: the version cache, the clock
(each `datetime.now()` call reads the tick and advances it), and the batches
the database sink has accepted so far. -/
structure PState where
  cache : VersionCache
  time : Nat
  sunk : List (List CheckResult)
deriving DecidableEq, Repr

/-- Splitting a character list at every occurrence of a separator
(structurally recursive counterpart of Python `str.split`). -/
def splitOnChar (sep : Char) : List Char → List (List Char)
  | [] => [[]]
  | c :: cs =>
      let r := splitOnChar sep cs
      if c = sep then [] :: r else (c :: r.headD []) :: r.tail

/-- Python `Path(file_path).name`: the final path component. -/
def pathName (path : String) : String :=
  ⟨(splitOnChar '/' path.data).getLastD path.data⟩

/-- Method `VersionManager.compute_file_hash`: raises `FileNotFoundError` when the
path does not exist, otherwise the SHA-256 hex digest of the bytes. -/
def compute_file_hash (env : Env) (file_path : String) : Except String String :=
  match env.fs file_path with
  | none => .error ("File not found: " ++ file_path)
  | some bytes => .ok (env.hashFn bytes)

/-- Method `VersionManager.get_version`: hash the file (which may raise), then
look up / assign the version in the cache. -/
def get_version (env : Env) (s : PState) (institute_id file_path : String) :
    Except String (FileVersion × PState) :=
  match compute_file_hash env file_path with
  | .error e => .error e
  | .ok file_hash =>
      let r := getVersionCore s.cache institute_id (pathName file_path) file_hash
      .ok (r.1, { s with cache := r.2 })

/-- The check loop inside `DocumentProcessor.process_file`: one `CheckResult`
per registered check, in registration order, all stamped with the same
identity, version and timestamp. -/
def buildResults (checks : List (String × CheckFn)) (workbook : Document)
    (version_info : FileVersion) (institute_id : String) (processed_at : Nat)
    (geschaeft_nr : Option String) (berichtsjahr : Option Nat) : List CheckResult :=
  checks.map (fun c =>
    let r := run_check c.1 c.2 workbook
    { institute_id := institute_id,
      file_name := version_info.file_name,
      file_hash := version_info.file_hash,
      version_number := version_info.version_number,
      check_name := c.1,
      check_description := r.2.2,
      outcome_bool := r.1,
      outcome_numeric := r.2.1,
      processed_at := processed_at,
      geschaeft_nr := geschaeft_nr,
      berichtsjahr := berichtsjahr })

/-- Method `DocumentProcessor.process_file`: assign the version (cache mutation
survives any later failure), load the workbook, take one timestamp, run all
checks, write the batch to the database, and return (version, results).
A failing step surfaces as `.error` with the state reached so far. -/
def process_file (env : Env) (s : PState) (institute_id file_path : String)
    (geschaeft_nr : Option String) (berichtsjahr : Option Nat) :
    Except String (FileVersion × List CheckResult) × PState :=
  match get_version env s institute_id file_path with
  | .error e => (.error e, s)
  | .ok (version_info, s1) =>
      match env.fs file_path with
      | none => (.error ("File not found: " ++ file_path), s1)
      | some bytes =>
          match env.parse bytes with
          | .error e => (.error e, s1)
          | .ok workbook =>
              let processed_at := s1.time
              let s2 : PState := { s1 with time := s1.time + 1 }
              let results := buildResults env.checks workbook version_info institute_id
                processed_at geschaeft_nr berichtsjahr
              if env.sinkOk results then
                (.ok (version_info, results), { s2 with sunk := s2.sunk ++ [results] })
              else
                (.error "Failed to write results to database", s2)

/-- Method `DocumentProcessor.should_process_file`: under force-reprocess always
process; otherwise hash the file (which may raise) and consult the cache. -/
def should_process_file (env : Env) (force_reprocess : Bool) (s : PState)
    (institute_id file_path : String) : Except String (Bool × String) :=
  if force_reprocess then .ok (true, "Force reprocess mode enabled")
  else
    match compute_file_hash env file_path with
    | .error e => .error e
    | .ok file_hash =>
        if is_processed s.cache institute_id file_hash then
          .ok (false, "File hash " ++ file_hash.take 8 ++ "... already processed")
        else
          .ok (true, "New file hash")

/-- Python `Path(file_name).stem`: the final component without its last suffix
(a leading-dot-only name like ".profile" has no suffix). -/
def joinDot : List (List Char) → List Char
  | [] => []
  | [x] => x
  | x :: xs => x ++ '.' :: joinDot xs

def pathStem (file_name : String) : String :=
  let nm := (pathName file_name).data
  let parts := splitOnChar '.' nm
  match parts with
  | [] => ⟨nm⟩
  | [_] => ⟨nm⟩
  | p :: ps => if p = [] ∧ ps.length = 1 then ⟨nm⟩ else ⟨joinDot parts.dropLast⟩

/-- Method `DocumentProcessor._extract_institute_id`: the part of the stem before
the first of the separators, tried in the order underscore, dash, space. -/
def extract_institute_id (file_name : String) : String :=
  let base_name := (pathStem file_name).data
  if (splitOnChar '_' base_name).length > 1 then ⟨(splitOnChar '_' base_name).headD base_name⟩
  else if (splitOnChar '-' base_name).length > 1 then
    ⟨(splitOnChar '-' base_name).headD base_name⟩
  else if (splitOnChar ' ' base_name).length > 1 then
    ⟨(splitOnChar ' ' base_name).headD base_name⟩
  else ⟨base_name⟩

/-- The per-run counters of `ORSAPipeline.processing_stats` (the datetime
bookkeeping fields are out of the embedding; the counters persist across
`process_documents` calls on one pipeline). -/
structure Stats where
  files_processed : Nat
  files_skipped : Nat
  files_failed : Nat
  checks_run : Nat
  checks_passed : Nat
  checks_failed : Nat
deriving DecidableEq, Repr

/-- The zeroed counters a freshly constructed pipeline starts with. -/
def initStats : Stats := ⟨0, 0, 0, 0, 0, 0⟩

/-- The summary dictionary returned by `ORSAPipeline.process_documents`
(without the wall-clock `processing_time`). -/
structure Summary where
  files_processed : Nat
  files_skipped : Nat
  files_failed : Nat
  total_checks : Nat
  checks_passed : Nat
  checks_failed : Nat
  pass_rate : ℚ
  institutes : List String
deriving DecidableEq, Repr

/-- Insertion sort on strings, modelling Python `sorted`. -/
def insertSorted (x : String) : List String → List String
  | [] => [x]
  | y :: ys => if x < y then x :: y :: ys else y :: insertSorted x ys

/-- Python `sorted(list(institutes_seen))`. -/
def sortStrings (l : List String) : List String := l.foldr insertSorted []

/-- One iteration of the document loop in `ORSAPipeline.process_documents`:
a missing file is counted as failed; otherwise the institute id is recorded,
the cache decides skip or process, and any exception from processing is
caught and counted as failed — the loop always continues. -/
def pipelineStep (env : Env) (force_reprocess : Bool)
    (acc : Stats × PState × List String) (doc : String × String) :
    Stats × PState × List String :=
  let stats := acc.1
  let s := acc.2.1
  let seen := acc.2.2
  let doc_name := doc.1
  let file_path := doc.2
  match env.fs file_path with
  | none => ({ stats with files_failed := stats.files_failed + 1 }, s, seen)
  | some _ =>
      let institute_id := extract_institute_id doc_name
      let seen := if institute_id ∈ seen then seen else seen ++ [institute_id]
      match should_process_file env force_reprocess s institute_id file_path with
      | .error _ => ({ stats with files_failed := stats.files_failed + 1 }, s, seen)
      | .ok sp =>
          if !sp.1 then
            ({ stats with files_skipped := stats.files_skipped + 1 }, s, seen)
          else
            match process_file env s institute_id file_path none none with
            | (.error _, s') =>
                ({ stats with files_failed := stats.files_failed + 1 }, s', seen)
            | (.ok r, s') =>
                ({ stats with
                    files_processed := stats.files_processed + 1,
                    checks_run := stats.checks_run + r.2.length,
                    checks_passed := stats.checks_passed
                      + r.2.countP (fun cr => cr.outcome_bool),
                    checks_failed := stats.checks_failed
                      + r.2.countP (fun cr => !cr.outcome_bool) }, s', seen)

/-- Method `ORSAPipeline.process_documents`: run the loop over all documents and
assemble the summary; `pass_rate = checks_passed / checks_run if
checks_run > 0 else 0.0` (exact rational division in place of the float). -/
def process_documents (env : Env) (force_reprocess : Bool) (stats0 : Stats) (s0 : PState)
    (documents : List (String × String)) : Summary × Stats × PState :=
  let r := documents.foldl (pipelineStep env force_reprocess) (stats0, s0, [])
  let stats := r.1
  let pass_rate : ℚ :=
    if stats.checks_run > 0 then (stats.checks_passed : ℚ) / (stats.checks_run : ℚ) else 0
  ({ files_processed := stats.files_processed,
     files_skipped := stats.files_skipped,
     files_failed := stats.files_failed,
     total_checks := stats.checks_run,
     checks_passed := stats.checks_passed,
     checks_failed := stats.checks_failed,
     pass_rate := pass_rate,
     institutes := sortStrings r.2.2 }, stats, r.2.1)

/-- C3 (amended): if a check body raises, `run_check` catches the exception
(the embedding is total, so it never escapes) and returns
`outcome_bool = False`, the sentinel outcome value "zu prüfen", and the
non-empty description "Check failed with error: " followed by the error
message.  (The description does not include the check's name; see the
counterexample.) -/
theorem run_check_catches (check_name : String) (f : CheckFn) (workbook : Document)
    (msg : String) (hf : f workbook = CheckOutcome.err msg) :
    run_check check_name f workbook
        = (false, "zu prüfen", "Check failed with error: " ++ msg)
      ∧ ("Check failed with error: " ++ msg) ≠ "" := by
  constructor
  · unfold run_check
    rw [hf]
  · intro hcon
    have hlen := congrArg String.length hcon
    rw [String.length_append] at hlen
    rw [show ("Check failed with error: " : String).length = 25 from rfl] at hlen
    rw [show ("" : String).length = 0 from rfl] at hlen
    omega

/-- Witness for `run_check_catches` at a concrete raising check. -/
theorem run_check_catches_witness :
    ((fun _ => CheckOutcome.err "boom") : CheckFn) [] = CheckOutcome.err "boom"
    ∧ (run_check "check_responsible_person" (fun _ => CheckOutcome.err "boom") []
        = (false, "zu prüfen", "Check failed with error: " ++ "boom")
      ∧ ("Check failed with error: " ++ "boom") ≠ "") :=
  ⟨rfl, run_check_catches "check_responsible_person" (fun _ => CheckOutcome.err "boom") []
    "boom" rfl⟩

/-- C3 counterexample: for the registered check name
"check_responsible_person" and a body raising "boom", the produced
description is "Check failed with error: boom" — it does not contain the
check's name as a substring and is not "<check name> failed: <error
message>", contrary to the claim. -/
theorem run_check_description_lacks_name :
    run_check "check_responsible_person" (fun _ => CheckOutcome.err "boom") []
        = (false, "zu prüfen", "Check failed with error: boom")
      ∧ strContains "Check failed with error: boom" "check_responsible_person" = false
      ∧ "Check failed with error: boom" ≠ "check_responsible_person failed: boom" := by
  refine ⟨by decide, by decide, by decide⟩

/-- A concrete check body that returns normally. -/
def okCheck : CheckFn := fun _ => CheckOutcome.ok true "1" "alles gut"

/-- A concrete check body that raises. -/
def errCheck : CheckFn := fun _ => CheckOutcome.err "kaput"

/-- A concrete version stamp for witnesses. -/
def viW : FileVersion := ⟨"A", "a.xlsx", "HASH1xyz", 1⟩

/-- C7: the check loop of `process_file` (`run_all`) produces exactly one
result per registered check — the output length equals the number of
registered checks — whose check names appear in registration order; and a
check body that raises contributes exactly its caught failure result while
every other check still runs and contributes its own unchanged result (the
loop around an erring entry splits into the unchanged left part, the caught
failure, and the unchanged right part). -/
theorem run_all_one_result_per_check
    (checks cs1 cs2 : List (String × CheckFn)) (workbook : Document)
    (version_info : FileVersion) (institute_id : String) (processed_at : Nat)
    (geschaeft_nr : Option String) (berichtsjahr : Option Nat)
    (check_name : String) (f : CheckFn) (msg : String)
    (hf : f workbook = CheckOutcome.err msg) :
    (buildResults checks workbook version_info institute_id processed_at geschaeft_nr
        berichtsjahr).length = checks.length
    ∧ (buildResults checks workbook version_info institute_id processed_at geschaeft_nr
        berichtsjahr).map (fun r => r.check_name) = checks.map Prod.fst
    ∧ buildResults (cs1 ++ (check_name, f) :: cs2) workbook version_info institute_id
        processed_at geschaeft_nr berichtsjahr
      = buildResults cs1 workbook version_info institute_id processed_at geschaeft_nr
          berichtsjahr
        ++ ({ institute_id := institute_id, file_name := version_info.file_name,
              file_hash := version_info.file_hash,
              version_number := version_info.version_number,
              check_name := check_name,
              check_description := "Check failed with error: " ++ msg,
              outcome_bool := false, outcome_numeric := "zu prüfen",
              processed_at := processed_at, geschaeft_nr := geschaeft_nr,
              berichtsjahr := berichtsjahr } : CheckResult)
          :: buildResults cs2 workbook version_info institute_id processed_at geschaeft_nr
              berichtsjahr := by
  have hrc : run_check check_name f workbook
      = (false, "zu prüfen", "Check failed with error: " ++ msg) := by
    unfold run_check
    rw [hf]
  refine ⟨by simp [buildResults], by simp [buildResults], ?_⟩
  unfold buildResults
  rw [List.map_append, List.map_cons]
  simp only [hrc]

/-- Witness for `run_all_one_result_per_check` at concrete checks. -/
theorem run_all_one_result_per_check_witness :
    errCheck [] = CheckOutcome.err "kaput"
    ∧ ((buildResults [("c1", okCheck)] [] viW "A" 0 none none).length
          = [("c1", okCheck)].length
      ∧ (buildResults [("c1", okCheck)] [] viW "A" 0 none none).map (fun r => r.check_name)
          = [("c1", okCheck)].map Prod.fst
      ∧ buildResults ([] ++ ("cboom", errCheck) :: [("c1", okCheck)]) [] viW "A" 0 none none
          = buildResults [] [] viW "A" 0 none none
            ++ ({ institute_id := "A", file_name := viW.file_name,
                  file_hash := viW.file_hash, version_number := viW.version_number,
                  check_name := "cboom",
                  check_description := "Check failed with error: " ++ "kaput",
                  outcome_bool := false, outcome_numeric := "zu prüfen",
                  processed_at := 0, geschaeft_nr := none,
                  berichtsjahr := none } : CheckResult)
              :: buildResults [("c1", okCheck)] [] viW "A" 0 none none) :=
  ⟨rfl, run_all_one_result_per_check [("c1", okCheck)] [] [("c1", okCheck)] [] viW "A" 0
    none none "cboom" errCheck "kaput" rfl⟩

/-- A concrete filesystem: "a.xlsx" and "c.xlsx" exist, everything else is
missing. -/
def fsA : String → Option (List Nat) := fun p =>
  if p = "a.xlsx" then some [1] else if p = "c.xlsx" then some [2] else none

/-- A concrete content hash (injective on the contents used). -/
def hashA : List Nat → String := fun b => if b = [1] then "HASH1xyz" else "HASH2xyz"

/-- A concrete environment: both files parse, one registered check, database
writes always succeed. -/
def envA : Env := ⟨fsA, hashA, fun bs => .ok bs, [("c1", okCheck)], fun _ => true⟩

/-- C8 (amended): with force set, `should_process_file` returns true with
reason "Force reprocess mode enabled" for every environment and every cache
state — it returns before hashing the file or consulting the cache, so even a
missing file and any cache content give the same answer.  Without force it
hashes the file and answers false with reason "File hash <first 8 hex
chars>... already processed" when the (institute, hash) pair is cached, else
true with reason "New file hash".  (The spec's literal reason strings
"forced" / "already processed" / "new content" are realised by these
messages; see the counterexample for the difference.) -/
theorem should_process_file_spec (env : Env) (s : PState) (institute_id file_path : String)
    (bytes : List Nat) (hfs : env.fs file_path = some bytes) :
    (∀ env' : Env, ∀ s' : PState,
        should_process_file env' true s' institute_id file_path
          = .ok (true, "Force reprocess mode enabled"))
    ∧ (is_processed s.cache institute_id (env.hashFn bytes) = true →
        should_process_file env false s institute_id file_path
          = .ok (false, "File hash " ++ (env.hashFn bytes).take 8 ++ "... already processed"))
    ∧ (is_processed s.cache institute_id (env.hashFn bytes) = false →
        should_process_file env false s institute_id file_path
          = .ok (true, "New file hash")) := by
  refine ⟨fun env' s' => rfl, ?_, ?_⟩
  · intro hp
    simp [should_process_file, compute_file_hash, hfs, hp]
  · intro hp
    simp [should_process_file, compute_file_hash, hfs, hp]

/-- Witness for `should_process_file_spec` at the concrete environment. -/
theorem should_process_file_spec_witness :
    envA.fs "a.xlsx" = some [1]
    ∧ ((∀ env' : Env, ∀ s' : PState,
          should_process_file env' true s' "A" "a.xlsx"
            = .ok (true, "Force reprocess mode enabled"))
      ∧ (is_processed (⟨[], 0, []⟩ : PState).cache "A" (envA.hashFn [1]) = true →
          should_process_file envA false ⟨[], 0, []⟩ "A" "a.xlsx"
            = .ok (false, "File hash " ++ (envA.hashFn [1]).take 8 ++ "... already processed"))
      ∧ (is_processed (⟨[], 0, []⟩ : PState).cache "A" (envA.hashFn [1]) = false →
          should_process_file envA false ⟨[], 0, []⟩ "A" "a.xlsx"
            = .ok (true, "New file hash"))) :=
  ⟨rfl, should_process_file_spec envA ⟨[], 0, []⟩ "A" "a.xlsx" [1] rfl⟩

/-- C8 counterexample: under force the code returns the reason string
"Force reprocess mode enabled" — it does return true regardless of cache and
filesystem state (here even for a missing file), but the reason is not the
literal "forced" the claim states. -/
theorem should_process_reason_not_forced :
    should_process_file envA true ⟨[], 0, []⟩ "A" "missing.xlsx"
        = .ok (true, "Force reprocess mode enabled")
      ∧ "Force reprocess mode enabled" ≠ "forced" :=
  ⟨rfl, by decide⟩

/-- C9: whenever `process_file` returns successfully, every result of the
returned batch is stamped with the call's institute, the document name,
fingerprint and version of the returned `FileVersion`, and the single
timestamp taken once before the check loop (so no two results of the batch
carry different timestamps), and the full batch has been appended to the
database sink before the call returns. -/
theorem process_file_stamps_uniformly (env : Env) (s : PState)
    (institute_id file_path : String) (g : Option String) (b : Option Nat)
    (version_info : FileVersion) (results : List CheckResult) (s' : PState)
    (hok : process_file env s institute_id file_path g b
      = (.ok (version_info, results), s')) :
    (∀ r ∈ results,
        r.institute_id = institute_id
      ∧ r.file_name = version_info.file_name
      ∧ r.file_hash = version_info.file_hash
      ∧ r.version_number = version_info.version_number
      ∧ r.processed_at = s.time)
    ∧ (∀ r ∈ results, ∀ r' ∈ results, r.processed_at = r'.processed_at)
    ∧ s'.sunk = s.sunk ++ [results] := by
  unfold process_file at hok
  cases hgv : get_version env s institute_id file_path with
  | error e =>
      rw [hgv] at hok
      simp at hok
  | ok p =>
      obtain ⟨vi0, s1⟩ := p
      have hs1 : s1.time = s.time ∧ s1.sunk = s.sunk := by
        unfold get_version at hgv
        cases hch : compute_file_hash env file_path with
        | error e =>
            rw [hch] at hgv
            simp at hgv
        | ok fh =>
            rw [hch] at hgv
            simp only [Except.ok.injEq, Prod.mk.injEq] at hgv
            rw [← hgv.2]
            exact ⟨rfl, rfl⟩
      rw [hgv] at hok
      dsimp only at hok
      cases hfs : env.fs file_path with
      | none =>
          rw [hfs] at hok
          simp at hok
      | some bytes =>
          rw [hfs] at hok
          dsimp only at hok
          cases hp : env.parse bytes with
          | error e =>
              rw [hp] at hok
              simp at hok
          | ok workbook =>
              rw [hp] at hok
              dsimp only at hok
              by_cases hsink : env.sinkOk (buildResults env.checks workbook vi0 institute_id
                  s1.time g b) = true
              · rw [if_pos hsink] at hok
                simp only [Except.ok.injEq, Prod.mk.injEq] at hok
                obtain ⟨⟨hvi, hres⟩, hst⟩ := hok
                subst hvi
                subst hres
                refine ⟨?_, ?_, ?_⟩
                · intro r hr
                  unfold buildResults at hr
                  obtain ⟨c, _, hc⟩ := List.mem_map.mp hr
                  subst hc
                  exact ⟨rfl, rfl, rfl, rfl, hs1.1⟩
                · intro r hr r' hr'
                  unfold buildResults at hr hr'
                  obtain ⟨c, _, hc⟩ := List.mem_map.mp hr
                  obtain ⟨c', _, hc'⟩ := List.mem_map.mp hr'
                  subst hc
                  subst hc'
                  rfl
                · rw [← hst]
                  dsimp only
                  rw [hs1.2]
              · rw [if_neg hsink] at hok
                simp at hok

/-- The concrete result batch `process_file envA` produces for "a.xlsx". -/
def resW : List CheckResult :=
  [{ institute_id := "A", file_name := "a.xlsx", file_hash := "HASH1xyz",
     version_number := 1, check_name := "c1", check_description := "alles gut",
     outcome_bool := true, outcome_numeric := "1", processed_at := 0,
     geschaeft_nr := none, berichtsjahr := none }]

/-- Witness for `process_file_stamps_uniformly` at the concrete environment. -/
theorem process_file_stamps_uniformly_witness :
    process_file envA ⟨[], 0, []⟩ "A" "a.xlsx" none none
        = (.ok (viW, resW), ⟨[("A", [("HASH1xyz", 1)])], 1, [resW]⟩)
    ∧ ((∀ r ∈ resW, r.institute_id = "A" ∧ r.file_name = viW.file_name
          ∧ r.file_hash = viW.file_hash ∧ r.version_number = viW.version_number
          ∧ r.processed_at = (⟨[], 0, []⟩ : PState).time)
      ∧ (∀ r ∈ resW, ∀ r' ∈ resW, r.processed_at = r'.processed_at)
      ∧ (⟨[("A", [("HASH1xyz", 1)])], 1, [resW]⟩ : PState).sunk
          = (⟨[], 0, []⟩ : PState).sunk ++ [resW]) :=
  ⟨rfl, process_file_stamps_uniformly envA ⟨[], 0, []⟩ "A" "a.xlsx" none none viW resW
    ⟨[("A", [("HASH1xyz", 1)])], 1, [resW]⟩ rfl⟩

theorem is_processed_after_getVersion (cache : VersionCache) (i nm h : String) :
    is_processed (getVersionCore cache i nm h).2 i h = true := by
  rw [is_processed_eq, getVersionCore_stores]
  rfl

/-- C10: the version assignment is not rolled back on error.  If the file
exists (so `get_version` assigns a version) but `process_file` then fails —
the reader cannot parse the bytes or the database write raises — the
(institute, fingerprint) entry stays in the registry: afterwards
`is_processed` is true and `should_process_file` for the byte-identical file
answers false ("already processed"), even though nothing was persisted for
that document (the sink state is unchanged). -/
theorem version_not_rolled_back (env : Env) (s : PState)
    (institute_id file_path : String) (bytes : List Nat) (msg : String) (s' : PState)
    (hfs : env.fs file_path = some bytes)
    (herr : process_file env s institute_id file_path none none = (.error msg, s')) :
    is_processed s'.cache institute_id (env.hashFn bytes) = true
    ∧ s'.sunk = s.sunk
    ∧ should_process_file env false s' institute_id file_path
        = .ok (false,
            "File hash " ++ (env.hashFn bytes).take 8 ++ "... already processed") := by
  have hch : compute_file_hash env file_path = .ok (env.hashFn bytes) := by
    unfold compute_file_hash
    rw [hfs]
  have hps :
      is_processed s'.cache institute_id (env.hashFn bytes) = true ∧ s'.sunk = s.sunk := by
    unfold process_file get_version at herr
    rw [hch] at herr
    dsimp only at herr
    rw [hfs] at herr
    dsimp only at herr
    cases hp : env.parse bytes with
    | error e =>
        rw [hp] at herr
        simp only [Prod.mk.injEq, Except.error.injEq] at herr
        obtain ⟨_, hs'⟩ := herr
        rw [← hs']
        exact ⟨is_processed_after_getVersion s.cache institute_id (pathName file_path)
          (env.hashFn bytes), rfl⟩
    | ok workbook =>
        rw [hp] at herr
        dsimp only at herr
        by_cases hsink : env.sinkOk (buildResults env.checks workbook
            (getVersionCore s.cache institute_id (pathName file_path) (env.hashFn bytes)).1
            institute_id s.time none none) = true
        · rw [if_pos hsink] at herr
          simp at herr
        · rw [if_neg hsink] at herr
          simp only [Prod.mk.injEq, Except.error.injEq] at herr
          obtain ⟨_, hs'⟩ := herr
          rw [← hs']
          exact ⟨is_processed_after_getVersion s.cache institute_id (pathName file_path)
            (env.hashFn bytes), rfl⟩
  refine ⟨hps.1, hps.2, ?_⟩
  simp [should_process_file, hch, hps.1]

/-- An environment whose reader rejects every file, for the rollback
witness. -/
def envB : Env := ⟨fsA, hashA, fun _ => .error "not excel", [("c1", okCheck)], fun _ => true⟩

/-- Witness for `version_not_rolled_back`: a parse failure at the concrete
environment leaves the version entry behind. -/
theorem version_not_rolled_back_witness :
    envB.fs "a.xlsx" = some [1]
    ∧ process_file envB ⟨[], 0, []⟩ "A" "a.xlsx" none none
        = (.error "not excel", ⟨[("A", [("HASH1xyz", 1)])], 0, []⟩)
    ∧ (is_processed (⟨[("A", [("HASH1xyz", 1)])], 0, []⟩ : PState).cache "A"
          (envB.hashFn [1]) = true
      ∧ (⟨[("A", [("HASH1xyz", 1)])], 0, []⟩ : PState).sunk = (⟨[], 0, []⟩ : PState).sunk
      ∧ should_process_file envB false ⟨[("A", [("HASH1xyz", 1)])], 0, []⟩ "A" "a.xlsx"
          = .ok (false, "File hash " ++ (envB.hashFn [1]).take 8 ++ "... already processed")) :=
  ⟨rfl, rfl, version_not_rolled_back envB ⟨[], 0, []⟩ "A" "a.xlsx" [1] "not excel"
    ⟨[("A", [("HASH1xyz", 1)])], 0, []⟩ rfl rfl⟩

theorem pipelineStep_counts (env : Env) (force : Bool) (acc : Stats × PState × List String)
    (doc : String × String) :
    ((pipelineStep env force acc doc).1.files_processed
      + (pipelineStep env force acc doc).1.files_skipped
      + (pipelineStep env force acc doc).1.files_failed)
    = acc.1.files_processed + acc.1.files_skipped + acc.1.files_failed + 1 := by
  obtain ⟨stats, s, seen⟩ := acc
  obtain ⟨doc_name, file_path⟩ := doc
  unfold pipelineStep
  dsimp only
  cases env.fs file_path with
  | none =>
      dsimp only
      omega
  | some bytes =>
      dsimp only
      cases should_process_file env force s (extract_institute_id doc_name) file_path with
      | error e =>
          dsimp only
          omega
      | ok sp =>
          dsimp only
          by_cases hb : (!sp.1) = true
          · rw [if_pos hb]
            dsimp only
            omega
          · rw [if_neg hb]
            cases hpf : process_file env s (extract_institute_id doc_name) file_path
                none none with
            | mk r s' =>
                cases r with
                | error e =>
                    dsimp only
                    omega
                | ok pr =>
                    dsimp only
                    omega

theorem foldl_counts (env : Env) (force : Bool) (docs : List (String × String)) :
    ∀ acc : Stats × PState × List String,
      ((docs.foldl (pipelineStep env force) acc).1.files_processed
        + (docs.foldl (pipelineStep env force) acc).1.files_skipped
        + (docs.foldl (pipelineStep env force) acc).1.files_failed)
      = acc.1.files_processed + acc.1.files_skipped + acc.1.files_failed + docs.length := by
  induction docs with
  | nil =>
      intro acc
      simp
  | cons d ds ih =>
      intro acc
      rw [List.foldl_cons, ih (pipelineStep env force acc d), pipelineStep_counts]
      simp
      omega

theorem pipelineStep_missing (env : Env) (force : Bool) (stats : Stats) (s : PState)
    (seen : List String) (doc_name file_path : String)
    (hfs : env.fs file_path = none) :
    pipelineStep env force (stats, s, seen) (doc_name, file_path)
      = ({ stats with files_failed := stats.files_failed + 1 }, s, seen) := by
  unfold pipelineStep
  dsimp only
  rw [hfs]

theorem pipelineStep_ok_new (env : Env) (s : PState) (doc_name file_path : String)
    (bytes : List Nat) (workbook : Document)
    (hfs : env.fs file_path = some bytes)
    (hparse : env.parse bytes = .ok workbook)
    (hsink : ∀ rs, env.sinkOk rs = true)
    (hnew : is_processed s.cache (extract_institute_id doc_name) (env.hashFn bytes)
      = false) :
    ∃ results : List CheckResult, ∃ s' : PState,
      (∀ (stats : Stats) (seen : List String),
        pipelineStep env false (stats, s, seen) (doc_name, file_path)
          = ({ stats with
                files_processed := stats.files_processed + 1,
                checks_run := stats.checks_run + results.length,
                checks_passed := stats.checks_passed
                  + results.countP (fun cr => cr.outcome_bool),
                checks_failed := stats.checks_failed
                  + results.countP (fun cr => !cr.outcome_bool) }, s',
             if extract_institute_id doc_name ∈ seen then seen
             else seen ++ [extract_institute_id doc_name]))
      ∧ s'.cache = stepCall s.cache
          ⟨extract_institute_id doc_name, pathName file_path, env.hashFn bytes⟩ := by
  have hch : compute_file_hash env file_path = .ok (env.hashFn bytes) := by
    unfold compute_file_hash
    rw [hfs]
  have hspf : should_process_file env false s (extract_institute_id doc_name) file_path
      = .ok (true, "New file hash") := by
    simp [should_process_file, hch, hnew]
  refine ⟨buildResults env.checks workbook
      (getVersionCore s.cache (extract_institute_id doc_name) (pathName file_path)
        (env.hashFn bytes)).1 (extract_institute_id doc_name) s.time none none,
    { cache := (getVersionCore s.cache (extract_institute_id doc_name) (pathName file_path)
        (env.hashFn bytes)).2,
      time := s.time + 1,
      sunk := s.sunk ++ [buildResults env.checks workbook
        (getVersionCore s.cache (extract_institute_id doc_name) (pathName file_path)
          (env.hashFn bytes)).1 (extract_institute_id doc_name) s.time none none] },
    ?_, rfl⟩
  intro stats seen
  have hpf : process_file env s (extract_institute_id doc_name) file_path none none
      = (.ok ((getVersionCore s.cache (extract_institute_id doc_name) (pathName file_path)
            (env.hashFn bytes)).1,
          buildResults env.checks workbook
            (getVersionCore s.cache (extract_institute_id doc_name) (pathName file_path)
              (env.hashFn bytes)).1 (extract_institute_id doc_name) s.time none none),
         { cache := (getVersionCore s.cache (extract_institute_id doc_name) (pathName file_path)
              (env.hashFn bytes)).2,
           time := s.time + 1,
           sunk := s.sunk ++ [buildResults env.checks workbook
             (getVersionCore s.cache (extract_institute_id doc_name) (pathName file_path)
               (env.hashFn bytes)).1 (extract_institute_id doc_name) s.time none none] }) := by
    unfold process_file get_version
    rw [hch]
    dsimp only
    rw [hfs]
    dsimp only
    rw [hparse]
    dsimp only
    rw [hsink]
    rw [if_pos rfl]
  unfold pipelineStep
  dsimp only
  rw [hfs]
  dsimp only
  rw [hspf]
  simp only [Bool.not_true, Bool.false_eq_true, if_false]
  rw [hpf]

/-- C4: failure containment of the batch loop.  (1) The loop is total and
every document lands in exactly one of processed / skipped / failed, so the
three counters always sum to the previous total plus the number of documents
— a failure on one document never stops the loop (the embedding of the
`try/except` body is a total step function).  (2) The summary's pass rate is
`checks_passed / checks_run`, and 0 when no checks ran.  (3) In particular:
one missing file among three otherwise-valid new documents yields
`files_failed = 1` and `files_processed = 2`. -/
theorem process_documents_failure_containment :
    (∀ (env : Env) (force : Bool) (stats0 : Stats) (s0 : PState)
        (docs : List (String × String)),
        (process_documents env force stats0 s0 docs).1.files_processed
          + (process_documents env force stats0 s0 docs).1.files_skipped
          + (process_documents env force stats0 s0 docs).1.files_failed
        = stats0.files_processed + stats0.files_skipped + stats0.files_failed + docs.length)
    ∧ (∀ (env : Env) (force : Bool) (stats0 : Stats) (s0 : PState)
        (docs : List (String × String)),
        (process_documents env force stats0 s0 docs).1.pass_rate
          = if (process_documents env force stats0 s0 docs).1.total_checks = 0 then 0
            else ((process_documents env force stats0 s0 docs).1.checks_passed : ℚ)
              / ((process_documents env force stats0 s0 docs).1.total_checks : ℚ))
    ∧ (∀ (env : Env) (s0 : PState) (n1 p1 n2 p2 n3 p3 : String) (b1 b3 : List Nat)
        (d1 d3 : Document),
        env.fs p1 = some b1 → env.fs p2 = none → env.fs p3 = some b3 →
        env.parse b1 = .ok d1 → env.parse b3 = .ok d3 →
        (∀ rs, env.sinkOk rs = true) →
        s0.cache = [] →
        (extract_institute_id n1 ≠ extract_institute_id n3
          ∨ env.hashFn b1 ≠ env.hashFn b3) →
        (process_documents env false initStats s0
            [(n1, p1), (n2, p2), (n3, p3)]).1.files_failed = 1
        ∧ (process_documents env false initStats s0
            [(n1, p1), (n2, p2), (n3, p3)]).1.files_processed = 2) := by
  refine ⟨?_, ?_, ?_⟩
  · intro env force stats0 s0 docs
    unfold process_documents
    dsimp only
    exact foldl_counts env force docs (stats0, s0, [])
  · intro env force stats0 s0 docs
    unfold process_documents
    dsimp only
    by_cases hrun :
        ((docs.foldl (pipelineStep env force) (stats0, s0, [])).1.checks_run : Nat) = 0
    · rw [if_pos hrun, hrun]
      simp
    · rw [if_neg hrun, if_pos (Nat.pos_of_ne_zero hrun)]
  · intro env s0 n1 p1 n2 p2 n3 p3 b1 b3 d1 d3 hfs1 hfs2 hfs3 hp1 hp3 hsink hc0 hdisj
    obtain ⟨res1, s1', hstep1, hcache1⟩ :=
      pipelineStep_ok_new env s0 n1 p1 b1 d1 hfs1 hp1 hsink (by rw [hc0]; rfl)
    have hnew3 : is_processed s1'.cache (extract_institute_id n3) (env.hashFn b3)
        = false := by
      rw [hcache1, is_processed_stepCall, hc0]
      rcases hdisj with hne | hne <;> simp [hne, is_processed, dictFind]
    obtain ⟨res3, s3', hstep3, _⟩ :=
      pipelineStep_ok_new env s1' n3 p3 b3 d3 hfs3 hp3 hsink hnew3
    unfold process_documents
    rw [List.foldl_cons, hstep1 initStats []]
    rw [List.foldl_cons, pipelineStep_missing env false _ s1' _ n2 p2 hfs2]
    rw [List.foldl_cons, hstep3]
    rw [List.foldl_nil]
    dsimp only
    exact ⟨rfl, rfl⟩

/-- Witness for `process_documents_failure_containment` (the concrete
scenario of the claim: "b.xlsx" is missing among three new documents). -/
theorem process_documents_failure_containment_witness :
    envA.fs "a.xlsx" = some [1]
    ∧ envA.fs "b.xlsx" = none
    ∧ envA.fs "c.xlsx" = some [2]
    ∧ extract_institute_id "A_r.xlsx" ≠ extract_institute_id "C_r.xlsx"
    ∧ ((process_documents envA false initStats ⟨[], 0, []⟩
          [("A_r.xlsx", "a.xlsx"), ("B_r.xlsx", "b.xlsx"),
            ("C_r.xlsx", "c.xlsx")]).1.files_failed = 1
      ∧ (process_documents envA false initStats ⟨[], 0, []⟩
          [("A_r.xlsx", "a.xlsx"), ("B_r.xlsx", "b.xlsx"),
            ("C_r.xlsx", "c.xlsx")]).1.files_processed = 2) :=
  ⟨rfl, rfl, rfl, by decide,
    process_documents_failure_containment.2.2 envA ⟨[], 0, []⟩ "A_r.xlsx" "a.xlsx"
      "B_r.xlsx" "b.xlsx" "C_r.xlsx" "c.xlsx" [1] [2] [1] [2] rfl rfl rfl rfl rfl
      (fun _ => rfl) rfl (Or.inl (by decide))⟩
